import Mathlib

/-!
Verification of the tag scanner and balance checker in `src/analyzer.py`.

The source is a single function `analyze_jsx` that
  * reads a file's full text,
  * extracts tag tokens with the regular expression
      `<(/?)([a-zA-Z0-9:]+)(?:\s+[^>]*?)?(/?\s*)>`
    via `re.finditer` (leftmost, non-overlapping matches),
  * classifies each token as closing (group 1 is a slash), self-closing
    (group 3 strips to a slash, or the name is in the void-tag list), or
    opening,
  * maintains a stack of `(tag_name, line_number)` records and prints
    diagnostics for unexpected closing tags, mismatched tags and, at end
    of scan, unclosed tags.

The content string is embedded as `List Char`, printing as an accumulated
`List Diag`, and the file read as an `Except` value feeding the pure scan.
-/

namespace Analyzer

/-- Characters matched by the name class `[a-zA-Z0-9:]` of the regex. -/
def isNameChar (c : Char) : Bool :=
  ('a' ≤ c && c ≤ 'z') || ('A' ≤ c && c ≤ 'Z') || ('0' ≤ c && c ≤ '9') || c == ':'

/-- Characters matched by `\s` in the regex (also the ones stripped by
`str.strip()`), restricted to the ASCII range. -/
def isPySpace (c : Char) : Bool :=
  c == ' ' || c == '\t' || c == '\n' || c == '\r' || c == '\x0b' || c == '\x0c'

/-- Split a character list at its first `>`: returns the characters before
that `>` and the characters after it, or `none` when no `>` occurs. -/
def findGt : List Char → Option (List Char × List Char)
  | [] => none
  | c :: cs =>
    if c = '>' then some ([], cs)
    else
      match findGt cs with
      | none => none
      | some (b, a) => some (c :: b, a)

/-- Match the part of the regex after the tag name,
`(?:\s+[^>]*?)?(/?\s*)>`, at the head of the remaining characters, under
Python's backtracking preferences (greedy `\s+`, lazy `[^>]*?`, greedy
`/?` and `\s*`).  Returns the text of capture group 3 together with the
characters after the consumed `>`.

With whitespace at the head, the optional group is entered, `\s+` takes the
maximal whitespace run, and the lazy `[^>]*?` grows until group 3 plus `>`
can match: group 3 ends at the first `>` and is the longest suffix before it
of the shape `/?\s*` (a slash start being the longer, hence preferred,
alternative).  With no whitespace at the head the optional group is skipped,
so either `>` is immediate (group 3 empty) or a `/` followed by whitespace
and `>` must follow (otherwise no match at this start position). -/
def tailMatch : List Char → Option (List Char × List Char)
  | [] => none
  | c :: r =>
    if isPySpace c then
      match findGt ((c :: r).dropWhile isPySpace) with
      | none => none
      | some (interior, rest) =>
        let ri := interior.reverse
        let rws := ri.takeWhile isPySpace
        let g3 :=
          match ri.dropWhile isPySpace with
          | '/' :: _ => '/' :: rws.reverse
          | _ => rws.reverse
        some (g3, rest)
    else if c = '>' then
      some ([], r)
    else if c = '/' then
      match r.dropWhile isPySpace with
      | '>' :: rest => some ('/' :: r.takeWhile isPySpace, rest)
      | _ => none
    else none

/-- Match the regex after the opening `<` and the optional `/` of group 1:
a nonempty run of name characters, then the tail of the pattern.  Returns
`(is_closing, group 2, group 3, characters after the match)`. -/
def matchCore (isC : Bool) (r : List Char) : Option (Bool × List Char × List Char × List Char) :=
  let name := r.takeWhile isNameChar
  if name.isEmpty then none
  else
    match tailMatch (r.dropWhile isNameChar) with
    | none => none
    | some (g3, rest) => some (isC, name, g3, rest)

/-- Attempt the whole regex at the head of the character list: a `<`, an
optional `/` (group 1, taken when present since the name class excludes
`/`), then `matchCore`. -/
def matchAt : List Char → Option (Bool × List Char × List Char × List Char)
  | [] => none
  | c :: r =>
    if c = '<' then
      match r with
      | '/' :: r2 => matchCore true r2
      | _ => matchCore false r
    else none

/-- A matched tag token: groups 1 (as a Bool), 2 and 3 of the regex plus
the offset of the match start in the content. -/
structure Tok where
  isClosing : Bool
  tagName : List Char
  group3 : List Char
  startPos : Nat
deriving DecidableEq

/-- The `re.finditer` loop: try the pattern at each position from left to
right; on a match, emit the token and resume after the consumed `>`
(non-overlapping matches), otherwise advance one character.  `fuel` bounds
the recursion; since every step consumes at least one character, fuel equal
to the length of the remaining text is sufficient (`scanFuel_fuel_irrel`). -/
def scanFuel : Nat → List Char → Nat → List Tok
  | 0, _, _ => []
  | _, [], _ => []
  | fuel + 1, c :: cs, pos =>
    match matchAt (c :: cs) with
    | some (isC, name, g3, rest) =>
      ⟨isC, name, g3, pos⟩ :: scanFuel fuel rest (pos + ((c :: cs).length - rest.length))
    | none => scanFuel fuel cs (pos + 1)

/-- All tag tokens of the content, in document order. -/
def tokens (content : List Char) : List Tok :=
  scanFuel content.length content 0

/-- The void-tag list `['img', 'br', 'hr', 'input', 'meta', 'link']`. -/
def voidTags : List (List Char) :=
  ["img".data, "br".data, "hr".data, "input".data, "meta".data, "link".data]

/-- Python's `str.strip()` on the values group 3 can take: drop leading and
trailing whitespace. -/
def pyStrip (l : List Char) : List Char :=
  ((l.dropWhile isPySpace).reverse.dropWhile isPySpace).reverse

/-- `is_self_closing`: group 3 strips to `'/'`, or the tag name is in the
void-tag list. -/
def isSelfClosingTok (t : Tok) : Bool :=
  decide (pyStrip t.group3 = ['/']) || decide (t.tagName ∈ voidTags)

/-- `content.count('\n', 0, match.start()) + 1`: one plus the number of
newline characters strictly before the given offset. -/
def lineOf (content : List Char) (p : Nat) : Nat :=
  (content.take p).count '\n' + 1

/-- The three diagnostics the scan can print, with the data interpolated
into each message. -/
inductive Diag where
  | unexpectedClosing (name : List Char) (line : Nat)
  | mismatch (openName : List Char) (openLine : Nat) (closeName : List Char) (closeLine : Nat)
  | unclosed (name : List Char) (line : Nat)
deriving DecidableEq

/-- The literal diagnostic text printed by the source. -/
def renderDiag : Diag → String
  | .unexpectedClosing n ln =>
    "Error: Unexpected closing tag </" ++ String.mk n ++ "> at line " ++ toString ln
  | .mismatch n1 l1 n2 l2 =>
    "Error: Mismatched tag. Opened <" ++ String.mk n1 ++ "> at line " ++ toString l1 ++
      ", closed </" ++ String.mk n2 ++ "> at line " ++ toString l2
  | .unclosed n ln =>
    "Error: Unclosed tag <" ++ String.mk n ++ "> opened at line " ++ toString ln

/-- The token loop and final stack drain of `analyze_jsx`, accumulating the
printed diagnostics in order.  The stack holds `(tag_name, line_number)`
records with the most recently pushed record first (Python appends and pops
at the end of its list).  Self-closing tokens are skipped; a closing token
with an empty stack reports and leaves the stack alone; a closing token
otherwise pops and reports a mismatch when the names differ; any other
token is pushed.  At the end every remaining record is drained top-first
into an unclosed-tag diagnostic. -/
def processToks (content : List Char) : List Tok → List (List Char × Nat) → List Diag
  | [], stack => stack.map (fun p => Diag.unclosed p.1 p.2)
  | t :: ts, stack =>
    if isSelfClosingTok t then
      processToks content ts stack
    else if t.isClosing then
      match stack with
      | [] =>
        Diag.unexpectedClosing t.tagName (lineOf content t.startPos) ::
          processToks content ts []
      | (tn, tl) :: s =>
        if tn ≠ t.tagName then
          Diag.mismatch tn tl t.tagName (lineOf content t.startPos) ::
            processToks content ts s
        else
          processToks content ts s
    else
      processToks content ts ((t.tagName, lineOf content t.startPos) :: stack)

/-- The whole scan on in-memory content: tokenize, run the stack machine
from an empty stack, drain the remainder. -/
def analyze (content : List Char) : List Diag :=
  processToks content (tokens content) []

/-- `analyze_jsx` including its read step: the file read either fails, and
that error propagates untouched, or yields the content on which the pure
scan runs. -/
def analyzeJsx (readResult : Except String (List Char)) : Except String (List Diag) :=
  match readResult with
  | Except.error e => Except.error e
  | Except.ok content => Except.ok (analyze content)

/-! ## The event-level view of the machine

`processToks` only looks at a token through whether it is skipped, whether
it is closing, its name, and its line; the events below record exactly
that, and the machine is re-expressed by a step function on stacks so that
prefixes of the run can be spoken about. -/

/-- The data of a non-self-closing token as the machine consumes it. -/
structure Ev where
  isClosing : Bool
  name : List Char
  line : Nat
deriving DecidableEq

/-- The event of a token: its class, name and attributed line. -/
def evOfTok (content : List Char) (t : Tok) : Ev :=
  ⟨t.isClosing, t.tagName, lineOf content t.startPos⟩

/-- The events of a token list: self-closing tokens drop out. -/
def evsOf (content : List Char) (ts : List Tok) : List Ev :=
  ts.filterMap (fun t => if isSelfClosingTok t then none else some (evOfTok content t))

/-- The events of the whole content. -/
def events (content : List Char) : List Ev :=
  evsOf content (tokens content)

/-- One event's effect on the stack: a closing event pops the top record
when there is one (and leaves an empty stack empty), any other event pushes
its record. -/
def stepStack (s : List (List Char × Nat)) (e : Ev) : List (List Char × Nat) :=
  if e.isClosing then s.tail else (e.name, e.line) :: s

/-- The diagnostics one event prints: a closing event on an empty stack is
unexpected, a closing event whose name differs from the top record's is a
mismatch, nothing otherwise. -/
def stepDiag (s : List (List Char × Nat)) (e : Ev) : List Diag :=
  if e.isClosing then
    match s with
    | [] => [Diag.unexpectedClosing e.name e.line]
    | (tn, tl) :: _ => if tn ≠ e.name then [Diag.mismatch tn tl e.name e.line] else []
  else []

/-- Run the machine over events from a given stack, draining the final
stack into unclosed-tag diagnostics. -/
def runEvents : List Ev → List (List Char × Nat) → List Diag
  | [], s => s.map (fun p => Diag.unclosed p.1 p.2)
  | e :: es, s => stepDiag s e ++ runEvents es (stepStack s e)

/-- The diagnostics printed during the token loop alone, without the final
drain. -/
def scanDiags : List Ev → List (List Char × Nat) → List Diag
  | [], _ => []
  | e :: es, s => stepDiag s e ++ scanDiags es (stepStack s e)

/-- Right-fold reduction of an event list, pairing each closing event with
the nearest preceding opening event not already consumed.  The state is the
number of closing events of the suffix still unmatched on its left, and the
records of the opening events of the suffix that no closing event consumes,
in document order. -/
def reduceEv (e : Ev) (st : Nat × List (List Char × Nat)) : Nat × List (List Char × Nat) :=
  if e.isClosing then (st.1 + 1, st.2)
  else if st.1 = 0 then (0, (e.name, e.line) :: st.2)
  else (st.1 - 1, st.2)

/-- The reduction of an event list. -/
def specReduce (es : List Ev) : Nat × List (List Char × Nat) :=
  es.foldr reduceEv (0, [])

/-- The opening events of the list never consumed by a closing event, in
document order (outermost first). -/
def specOpens (es : List Ev) : List (List Char × Nat) :=
  (specReduce es).2

/-- The closing events of the list not matched by any earlier opening
event. -/
def specCloses (es : List Ev) : Nat :=
  (specReduce es).1

/-- Balanced event lists: every opening event is matched by exactly one
same-named closing event, in correct nesting order. -/
inductive Balanced : List Ev → Prop
  | nil : Balanced []
  | node (n : List Char) (l1 l2 : Nat) (m r : List Ev) :
      Balanced m → Balanced r →
      Balanced (⟨false, n, l1⟩ :: m ++ ⟨true, n, l2⟩ :: r)

/-- Well-formed content: the non-self-closing tag tokens form a balanced
sequence. -/
def WellFormed (content : List Char) : Prop :=
  Balanced (events content)

/-- Diag test used to state the finalization claim. -/
def isUnclosedDiag : Diag → Bool
  | .unclosed _ _ => true
  | _ => false

/-- An opening-side name/line pair of a diagnostic is accounted for by a
scanned non-closing token whose start offset gives the line as one plus the
newlines before it. -/
def openTraced (content : List Char) (n : List Char) (ln : Nat) : Prop :=
  ∃ t, t ∈ tokens content ∧ t.isClosing = false ∧ t.tagName = n ∧
    ln = (content.take t.startPos).count '\n' + 1

/-- A closing-side name/line pair of a diagnostic is accounted for by a
scanned closing token whose start offset gives the line as one plus the
newlines before it. -/
def closeTraced (content : List Char) (n : List Char) (ln : Nat) : Prop :=
  ∃ t, t ∈ tokens content ∧ t.isClosing = true ∧ t.tagName = n ∧
    ln = (content.take t.startPos).count '\n' + 1

/-- Every name/line pair a diagnostic reports is accounted for by a scanned
token of the right kind. -/
def diagTraced (content : List Char) : Diag → Prop
  | .unexpectedClosing n ln => closeTraced content n ln
  | .mismatch n1 ln1 n2 ln2 => openTraced content n1 ln1 ∧ closeTraced content n2 ln2
  | .unclosed n ln => openTraced content n ln

/-! ## The scan consumes its input

Every step of the tokenizer consumes at least one character, so fuel equal
to the length of the text suffices and `tokens` computes the full
`re.finditer` loop, not a truncation. -/

theorem length_dropWhile_le (p : Char → Bool) (l : List Char) :
    (l.dropWhile p).length ≤ l.length := by
  induction l with
  | nil => simp
  | cons c cs ih =>
    by_cases h : p c
    · simpa [List.dropWhile, h] using Nat.le_succ_of_le ih
    · simp [List.dropWhile, h]

theorem findGt_length : ∀ (l b a : List Char), findGt l = some (b, a) → a.length < l.length := by
  intro l
  induction l with
  | nil => intro b a h; simp [findGt] at h
  | cons c cs ih =>
    intro b a h
    by_cases hc : c = '>'
    · simp only [findGt, if_pos hc] at h
      simp at h
      obtain ⟨h1, h2⟩ := h
      subst h2
      simp
    · simp only [findGt, if_neg hc] at h
      rcases hfg : findGt cs with _ | ⟨b2, a2⟩
      · rw [hfg] at h; simp at h
      · rw [hfg] at h
        simp at h
        obtain ⟨h1, h2⟩ := h
        subst h2
        have := ih b2 a2 hfg
        simp
        omega

theorem tailMatch_length : ∀ (l g r : List Char), tailMatch l = some (g, r) → r.length < l.length := by
  intro l g r h
  match l with
  | [] => simp [tailMatch] at h
  | c :: t =>
    simp only [tailMatch] at h
    by_cases hsp : isPySpace c
    · rw [if_pos hsp] at h
      rcases hfg : findGt ((c :: t).dropWhile isPySpace) with _ | ⟨interior, rest⟩
      · rw [hfg] at h; simp at h
      · rw [hfg] at h
        simp at h
        obtain ⟨h1, h2⟩ := h
        subst h2
        have h3 := findGt_length _ _ _ hfg
        have h4 := length_dropWhile_le isPySpace (c :: t)
        omega
    · rw [if_neg hsp] at h
      by_cases hgt : c = '>'
      · rw [if_pos hgt] at h
        simp at h
        obtain ⟨h1, h2⟩ := h
        subst h2
        simp
      · rw [if_neg hgt] at h
        by_cases hsl : c = '/'
        · rw [if_pos hsl] at h
          rcases hdw : t.dropWhile isPySpace with _ | ⟨d, rest⟩
          · rw [hdw] at h; simp at h
          · rw [hdw] at h
            by_cases hd : d = '>'
            · subst hd
              simp at h
              obtain ⟨h1, h2⟩ := h
              subst h2
              have h4 := length_dropWhile_le isPySpace t
              rw [hdw] at h4
              simp at h4 ⊢
              omega
            · have hred : (match d :: rest with
                  | '>' :: rs => some ('/' :: t.takeWhile isPySpace, rs)
                  | _ => (none : Option (List Char × List Char))) = none := by
                simp [hd]
              rw [hred] at h
              simp at h
        · rw [if_neg hsl] at h
          simp at h

theorem matchCore_length (b : Bool) (r : List Char) (x : Bool) (y z rest : List Char)
    (h : matchCore b r = some (x, y, z, rest)) : rest.length < r.length := by
  simp only [matchCore] at h
  split at h
  · simp at h
  · rcases htm : tailMatch (r.dropWhile isNameChar) with _ | ⟨g3, rest2⟩
    · rw [htm] at h; simp at h
    · rw [htm] at h
      simp at h
      obtain ⟨h1, h2, h3, h4⟩ := h
      subst h4
      have h5 := tailMatch_length _ _ _ htm
      have h6 := length_dropWhile_le isNameChar r
      omega

theorem matchAt_length (l : List Char) (x : Bool) (y z rest : List Char)
    (h : matchAt l = some (x, y, z, rest)) : rest.length < l.length := by
  rcases l with _ | ⟨c, r⟩
  · simp [matchAt] at h
  · simp only [matchAt] at h
    by_cases hc : c = '<'
    · rw [if_pos hc] at h
      split at h
      · have := matchCore_length _ _ _ _ _ _ h
        simp
        omega
      · have := matchCore_length _ _ _ _ _ _ h
        simp
        omega
    · rw [if_neg hc] at h
      simp at h

/-- Any fuel at least the length of the text gives the same token list:
the loop terminates on its own before the fuel can run out. -/
theorem scanFuel_fuel_irrel : ∀ (f1 f2 : Nat) (l : List Char) (pos : Nat),
    l.length ≤ f1 → l.length ≤ f2 → scanFuel f1 l pos = scanFuel f2 l pos := by
  intro f1
  induction f1 with
  | zero =>
    intro f2 l pos h1 h2
    have hl : l = [] := List.eq_nil_of_length_eq_zero (Nat.le_zero.mp h1)
    subst hl
    cases f2 <;> simp [scanFuel]
  | succ f ih =>
    intro f2 l pos h1 h2
    rcases l with _ | ⟨c, t⟩
    · cases f2 <;> simp [scanFuel]
    · obtain ⟨g, rfl⟩ : ∃ g, f2 = g + 1 := ⟨f2 - 1, by simp at h2; omega⟩
      simp only [scanFuel]
      rcases hm : matchAt (c :: t) with _ | ⟨isC, name, g3, rest⟩
      · simp at h1 h2
        exact ih g t (pos + 1) (by omega) (by omega)
      · have hlen := matchAt_length _ _ _ _ _ hm
        simp at h1 h2 hlen
        have hrec := ih g rest (pos + ((c :: t).length - rest.length)) (by omega) (by omega)
        simp only [hrec]

/-- With the canonical fuel, `tokens` is stable under any larger fuel. -/
theorem tokens_eq_scanFuel (content : List Char) (f : Nat) (hf : content.length ≤ f) :
    scanFuel f content 0 = tokens content :=
  scanFuel_fuel_irrel f content.length content 0 hf (Nat.le_refl _)

/-! ## The token loop seen at the level of events -/

/-- `processToks` is `runEvents` on the events of its token list. -/
theorem processToks_eq_runEvents (content : List Char) :
    ∀ (ts : List Tok) (s : List (List Char × Nat)),
      processToks content ts s = runEvents (evsOf content ts) s := by
  intro ts
  induction ts with
  | nil => intro s; simp [processToks, evsOf, runEvents]
  | cons t ts ih =>
    intro s
    by_cases hsc : isSelfClosingTok t
    · simp [processToks, evsOf, hsc, ih]
    · by_cases hcl : t.isClosing
      · rcases s with _ | ⟨⟨tn, tl⟩, s'⟩
        · simp [processToks, evsOf, runEvents, stepDiag, stepStack, evOfTok, hsc, hcl, ih]
        · by_cases hne : tn = t.tagName
          · simp [processToks, evsOf, runEvents, stepDiag, stepStack, evOfTok, hsc, hcl, hne, ih]
          · simp [processToks, evsOf, runEvents, stepDiag, stepStack, evOfTok, hsc, hcl, hne, ih]
      · simp [processToks, evsOf, runEvents, stepDiag, stepStack, evOfTok, hsc, hcl, ih]

/-- The run splits into the diagnostics of the loop and the final drain of
the stack the loop leaves behind. -/
theorem runEvents_eq_scanDiags (es : List Ev) : ∀ (s : List (List Char × Nat)),
    runEvents es s =
      scanDiags es s ++ (es.foldl stepStack s).map (fun p => Diag.unclosed p.1 p.2) := by
  induction es with
  | nil => intro s; simp [runEvents, scanDiags]
  | cons e es ih => intro s; simp [runEvents, scanDiags, ih, List.append_assoc]

/-- Splitting a run at any point: the machine continues from the stack the
prefix folded up. -/
theorem runEvents_append (a : List Ev) : ∀ (b : List Ev) (s : List (List Char × Nat)),
    runEvents (a ++ b) s = scanDiags a s ++ runEvents b (a.foldl stepStack s) := by
  induction a with
  | nil => intro b s; simp [scanDiags]
  | cons e a ih => intro b s; simp [runEvents, scanDiags, ih, List.append_assoc]

/-- The loop itself never prints an unclosed-tag diagnostic. -/
theorem stepDiag_not_unclosed (s : List (List Char × Nat)) (e : Ev) (d : Diag)
    (h : d ∈ stepDiag s e) : isUnclosedDiag d = false := by
  unfold stepDiag at h
  split at h
  · split at h
    · simp at h
      subst h
      rfl
    · split at h
      · simp at h
        subst h
        rfl
      · simp at h
  · simp at h

/-- No unclosed-tag diagnostic is printed before the drain. -/
theorem scanDiags_not_unclosed (es : List Ev) : ∀ (s : List (List Char × Nat)) (d : Diag),
    d ∈ scanDiags es s → isUnclosedDiag d = false := by
  induction es with
  | nil => intro s d h; simp [scanDiags] at h
  | cons e es ih =>
    intro s d h
    rw [scanDiags, List.mem_append] at h
    rcases h with h | h
    · exact stepDiag_not_unclosed s e d h
    · exact ih _ d h

/-- One step of the right-fold reduction. -/
theorem specReduce_cons (e : Ev) (es : List Ev) :
    specReduce (e :: es) = reduceEv e (specReduce es) := rfl

/-- The stack the machine folds up is exactly the reversal of the opening
records the right-fold reduction leaves unconsumed, the initial stack eaten
into as deep as the unmatched closing events reach. -/
theorem foldl_stepStack_eq (es : List Ev) : ∀ (s : List (List Char × Nat)),
    es.foldl stepStack s = (specOpens es).reverse ++ s.drop (specCloses es) := by
  induction es with
  | nil => intro s; simp [specOpens, specCloses, specReduce]
  | cons e es ih =>
    intro s
    rw [List.foldl_cons, ih (stepStack s e)]
    by_cases hc : e.isClosing
    · simp only [specOpens, specCloses, specReduce_cons, reduceEv, hc, if_true, stepStack]
      rw [← List.drop_one, List.drop_drop, Nat.add_comm]
    · by_cases h0 : (specReduce es).1 = 0
      · simp [specOpens, specCloses, specReduce_cons, reduceEv, hc, h0, stepStack,
          List.append_assoc]
      · obtain ⟨k, hk⟩ : ∃ k, (specReduce es).1 = k + 1 := ⟨(specReduce es).1 - 1, by omega⟩
        simp [specOpens, specCloses, specReduce_cons, reduceEv, hc, h0, stepStack, hk]

/-- A balanced block of events leaves no trace: no diagnostics and the
stack as it was. -/
theorem balanced_runEvents (m : List Ev) (hm : Balanced m) :
    ∀ (t : List Ev) (s : List (List Char × Nat)), runEvents (m ++ t) s = runEvents t s := by
  induction hm with
  | nil => intro t s; simp
  | node n l1 l2 m r hbm hbr ihm ihr =>
    intro t s
    simp only [List.cons_append, List.append_assoc]
    rw [runEvents]
    have h1 : stepDiag s ⟨false, n, l1⟩ = [] := by simp [stepDiag]
    have h2 : stepStack s ⟨false, n, l1⟩ = (n, l1) :: s := by simp [stepStack]
    rw [h1, h2]
    rw [ihm (⟨true, n, l2⟩ :: (r ++ t)) ((n, l1) :: s)]
    rw [runEvents]
    have h3 : stepDiag ((n, l1) :: s) ⟨true, n, l2⟩ = [] := by simp [stepDiag]
    have h4 : stepStack ((n, l1) :: s) ⟨true, n, l2⟩ = s := by simp [stepStack]
    rw [h3, h4, ihr t s]
    simp

/-- Invariant run of the token loop: when every pending token was scanned
and every stack record traces to a scanned opening token, every diagnostic
the loop emits is traced. -/
theorem processToks_traced (content : List Char) :
    ∀ (ts : List Tok) (stack : List (List Char × Nat)),
      (∀ t ∈ ts, t ∈ tokens content) →
      (∀ p ∈ stack, openTraced content p.1 p.2) →
      ∀ d ∈ processToks content ts stack, diagTraced content d := by
  intro ts
  induction ts with
  | nil =>
    intro stack hts hstack d hd
    simp only [processToks, List.mem_map] at hd
    obtain ⟨p, hp, rfl⟩ := hd
    exact hstack p hp
  | cons t ts ih =>
    intro stack hts hstack d hd
    have htok : t ∈ tokens content := hts t (by simp)
    have hts2 : ∀ x ∈ ts, x ∈ tokens content := fun x hx => hts x (by simp [hx])
    by_cases hsc : isSelfClosingTok t
    · rw [show processToks content (t :: ts) stack = processToks content ts stack from by
        simp [processToks, hsc]] at hd
      exact ih stack hts2 hstack d hd
    · by_cases hcl : t.isClosing
      · rcases stack with _ | ⟨⟨tn, tl⟩, s2⟩
        · rw [show processToks content (t :: ts) [] =
              Diag.unexpectedClosing t.tagName (lineOf content t.startPos) ::
                processToks content ts [] from by simp [processToks, hsc, hcl]] at hd
          rcases List.mem_cons.mp hd with rfl | hd
          · exact ⟨t, htok, hcl, rfl, rfl⟩
          · exact ih [] hts2 (by simp) d hd
        · have hstack2 : ∀ p ∈ s2, openTraced content p.1 p.2 :=
            fun p hp => hstack p (List.mem_cons_of_mem _ hp)
          by_cases hne : tn = t.tagName
          · rw [show processToks content (t :: ts) ((tn, tl) :: s2) =
                processToks content ts s2 from by simp [processToks, hsc, hcl, hne]] at hd
            exact ih s2 hts2 hstack2 d hd
          · rw [show processToks content (t :: ts) ((tn, tl) :: s2) =
                Diag.mismatch tn tl t.tagName (lineOf content t.startPos) ::
                  processToks content ts s2 from by simp [processToks, hsc, hcl, hne]] at hd
            rcases List.mem_cons.mp hd with rfl | hd
            · exact ⟨hstack (tn, tl) (by simp), t, htok, hcl, rfl, rfl⟩
            · exact ih s2 hts2 hstack2 d hd
      · rw [show processToks content (t :: ts) stack =
            processToks content ts ((t.tagName, lineOf content t.startPos) :: stack) from by
          simp [processToks, hsc, hcl]] at hd
        refine ih _ hts2 ?_ d hd
        intro p hp
        rcases List.mem_cons.mp hp with rfl | hp
        · exact ⟨t, htok, by simp [Bool.not_eq_true] at hcl; exact hcl, rfl, rfl⟩
        · exact hstack p hp

/-! ## Sanity checks: the end-to-end scenarios of the spec -/

theorem scenario_nested_ok : analyze "<div><span></span></div>".data = [] := by decide

theorem scenario_mismatch_then_unclosed : analyze "<div><span></div>".data =
    [Diag.mismatch "span".data 1 "div".data 1, Diag.unclosed "div".data 1] := by decide

theorem scenario_void_img : analyze "<img src=\"x.png\">".data = [] := by decide

theorem scenario_lone_closer : analyze "</p>".data =
    [Diag.unexpectedClosing "p".data 1] := by decide

theorem scenario_newline : analyze "<a><b>\n</a>".data =
    [Diag.mismatch "b".data 1 "a".data 2, Diag.unclosed "a".data 1] := by decide

/-! ## The claims -/

/-- C1: for every input whose non-self-closing tag tokens are balanced
(every opening tag matched by exactly one same-named closing tag in correct
nesting order, void and self-closing tags excluded), the scan emits no
diagnostics at all. -/
theorem c1_wellformed_no_diagnostics (content : List Char) (h : WellFormed content) :
    analyze content = [] := by
  have h1 : analyze content = runEvents (events content) [] :=
    processToks_eq_runEvents content (tokens content) []
  have h2 := balanced_runEvents (events content) h [] []
  simp only [List.append_nil] at h2
  rw [h1, h2]
  simp [runEvents]

/-- Witness for C1 at the concrete input `<div><span></span></div>`. -/
theorem c1_witness :
    WellFormed "<div><span></span></div>".data ∧
    analyze "<div><span></span></div>".data = [] := by
  have hin : Balanced [⟨false, "span".data, 1⟩, ⟨true, "span".data, 1⟩] := by
    have h := Balanced.node "span".data 1 1 [] [] Balanced.nil Balanced.nil
    simpa using h
  have hout : Balanced [⟨false, "div".data, 1⟩, ⟨false, "span".data, 1⟩,
      ⟨true, "span".data, 1⟩, ⟨true, "div".data, 1⟩] := by
    have h := Balanced.node "div".data 1 1
      [⟨false, "span".data, 1⟩, ⟨true, "span".data, 1⟩] [] hin Balanced.nil
    simpa using h
  have hwf : WellFormed "<div><span></span></div>".data := by
    have he : events "<div><span></span></div>".data =
        [⟨false, "div".data, 1⟩, ⟨false, "span".data, 1⟩,
         ⟨true, "span".data, 1⟩, ⟨true, "div".data, 1⟩] := by decide
    unfold WellFormed
    rw [he]
    exact hout
  exact ⟨hwf, c1_wellformed_no_diagnostics _ hwf⟩

/-- C2: a closing token scanned on a non-empty stack pops the top record in
every case; exactly one mismatch diagnostic, naming the opened tag with its
line and the closing tag with its line, is emitted when the popped name
differs from the closing name, and the machine continues on the popped
stack with no re-push. -/
theorem c2_closing_nonempty_pops (content : List Char) (t : Tok) (ts : List Tok)
    (tn : List Char) (tl : Nat) (s : List (List Char × Nat))
    (hcl : t.isClosing = true) (hsc : isSelfClosingTok t = false) :
    processToks content (t :: ts) ((tn, tl) :: s) =
      (if tn = t.tagName then []
       else [Diag.mismatch tn tl t.tagName (lineOf content t.startPos)]) ++
        processToks content ts s := by
  by_cases h : tn = t.tagName <;> simp [processToks, hcl, hsc, h]

/-- Witness for C2: closing `</b>` over a stack whose top is `a`. -/
theorem c2_witness :
    (Tok.mk true "b".data [] 0).isClosing = true ∧
    isSelfClosingTok (Tok.mk true "b".data [] 0) = false ∧
    processToks [] [Tok.mk true "b".data [] 0] [("a".data, 1)] =
      (if "a".data = (Tok.mk true "b".data [] 0).tagName then []
       else [Diag.mismatch "a".data 1 (Tok.mk true "b".data [] 0).tagName
          (lineOf [] (Tok.mk true "b".data [] 0).startPos)]) ++
        processToks [] [] [] :=
  ⟨rfl, by decide,
    c2_closing_nonempty_pops [] (Tok.mk true "b".data [] 0) [] "a".data 1 [] rfl (by decide)⟩

/-- C3: the unclosed-tag diagnostics of a full scan are exactly the records
remaining on the stack after all tokens are processed, drained in LIFO
order (most recently opened first), each naming the tag and the line at
which it was opened; in particular their number equals the remaining stack
depth. -/
theorem c3_unclosed_eq_final_stack (content : List Char) :
    (analyze content).filter isUnclosedDiag =
      ((events content).foldl stepStack []).map (fun p => Diag.unclosed p.1 p.2) := by
  have h1 : analyze content = runEvents (events content) [] :=
    processToks_eq_runEvents content (tokens content) []
  rw [h1, runEvents_eq_scanDiags, List.filter_append]
  have h2 : (scanDiags (events content) []).filter isUnclosedDiag = [] := by
    apply List.filter_eq_nil_iff.mpr
    intro d hd
    simp [scanDiags_not_unclosed (events content) [] d hd]
  have h3 : ∀ d ∈ ((events content).foldl stepStack []).map
      (fun p => Diag.unclosed p.1 p.2), isUnclosedDiag d := by
    intro d hd
    obtain ⟨p, hp, rfl⟩ := List.mem_map.mp hd
    rfl
  rw [h2, List.filter_eq_self.mpr h3]
  simp

/-- C4: a closing token scanned on an empty stack yields exactly one
unexpected-closing-tag diagnostic naming the tag and its line, and the
machine continues on the unchanged empty stack. -/
theorem c4_unexpected_closing_empty_stack (content : List Char) (t : Tok) (ts : List Tok)
    (hcl : t.isClosing = true) (hsc : isSelfClosingTok t = false) :
    processToks content (t :: ts) [] =
      Diag.unexpectedClosing t.tagName (lineOf content t.startPos) ::
        processToks content ts [] := by
  simp [processToks, hcl, hsc]

/-- Witness for C4: the closing token of `</p>` on an empty stack. -/
theorem c4_witness :
    (Tok.mk true "p".data [] 0).isClosing = true ∧
    isSelfClosingTok (Tok.mk true "p".data [] 0) = false ∧
    processToks "</p>".data [Tok.mk true "p".data [] 0] [] =
      Diag.unexpectedClosing (Tok.mk true "p".data [] 0).tagName
          (lineOf "</p>".data (Tok.mk true "p".data [] 0).startPos) ::
        processToks "</p>".data [] [] :=
  ⟨rfl, by decide,
    c4_unexpected_closing_empty_stack "</p>".data (Tok.mk true "p".data [] 0) [] rfl (by decide)⟩

/-- C5: a token with its explicit self-close marker (group 3 strips to a
slash) or whose name is in the void set is excluded from the stack logic
entirely: it is never pushed, never pops, and produces no diagnostic at the
point it is scanned. -/
theorem c5_self_closing_skipped (content : List Char) (t : Tok) (ts : List Tok)
    (s : List (List Char × Nat))
    (h : pyStrip t.group3 = ['/'] ∨ t.tagName ∈ voidTags) :
    processToks content (t :: ts) s = processToks content ts s := by
  have hsc : isSelfClosingTok t = true := by
    rcases h with h | h <;> simp [isSelfClosingTok, h]
  simp [processToks, hsc]

/-- Witness for C5: a void-set `img` token with no explicit self-close
marker is skipped, and `<img>` alone produces no diagnostics. -/
theorem c5_witness :
    (pyStrip (Tok.mk false "img".data [] 0).group3 = ['/'] ∨
      (Tok.mk false "img".data [] 0).tagName ∈ voidTags) ∧
    processToks "<img>".data [Tok.mk false "img".data [] 0] [] =
      processToks "<img>".data [] [] ∧
    analyze "<img>".data = [] :=
  ⟨Or.inr (by decide),
    c5_self_closing_skipped "<img>".data (Tok.mk false "img".data [] 0) [] []
      (Or.inr (by decide)),
    by decide⟩

/-- C6: every name/line pair reported in any diagnostic of a scan comes
from a scanned token of the matching kind, whose reported line equals one
plus the number of newline characters strictly before the token's start
offset. -/
theorem c6_diag_lines_from_token_starts (content : List Char) (d : Diag)
    (h : d ∈ analyze content) : diagTraced content d :=
  processToks_traced content (tokens content) [] (fun _ ht => ht) (by simp) d h

/-- Witness for C6 at the concrete input `</p>`. -/
theorem c6_witness :
    Diag.unexpectedClosing "p".data 1 ∈ analyze "</p>".data ∧
    diagTraced "</p>".data (Diag.unexpectedClosing "p".data 1) :=
  ⟨by decide, c6_diag_lines_from_token_starts "</p>".data _ (by decide)⟩

/-- C7: at every point of the scan — after any prefix of the event stream —
the machine's stack is exactly the reversal of the opening events of that
prefix not consumed by a closing event (each closing event consuming the
most recently opened record still present, per the stack discipline of the
spec), so the opening tags seen so far and not yet matched sit on the stack
in nesting order with the most recent on top, and the rest of the scan
continues from precisely that stack. -/
theorem c7_stack_invariant (content : List Char) (es1 es2 : List Ev)
    (h : events content = es1 ++ es2) :
    analyze content = scanDiags es1 [] ++ runEvents es2 ((specOpens es1).reverse) := by
  have h1 : analyze content = runEvents (events content) [] :=
    processToks_eq_runEvents content (tokens content) []
  rw [h1, h, runEvents_append]
  rw [foldl_stepStack_eq es1 []]
  simp

/-- Witness for C7: the split of `<a><b></a>` after its two opening
events. -/
theorem c7_witness :
    events "<a><b></a>".data =
        [⟨false, "a".data, 1⟩, ⟨false, "b".data, 1⟩] ++ [⟨true, "a".data, 1⟩] ∧
    analyze "<a><b></a>".data =
      scanDiags [⟨false, "a".data, 1⟩, ⟨false, "b".data, 1⟩] [] ++
        runEvents [⟨true, "a".data, 1⟩]
          ((specOpens [⟨false, "a".data, 1⟩, ⟨false, "b".data, 1⟩]).reverse) :=
  ⟨by decide,
    c7_stack_invariant "<a><b></a>".data
      [⟨false, "a".data, 1⟩, ⟨false, "b".data, 1⟩] [⟨true, "a".data, 1⟩] (by decide)⟩

/-- C8: the scan itself is a total function on arbitrary content — it
always completes with a finite diagnostic list — and the whole tool
propagates an error exactly when the read step fails, the error passing
through untouched. -/
theorem c8_fails_only_at_read (readResult : Except String (List Char)) :
    analyzeJsx readResult = Except.map analyze readResult ∧
    (analyzeJsx readResult).isOk = readResult.isOk := by
  cases readResult <;> simp [analyzeJsx, Except.map, Except.isOk, Except.toBool]

/-- C9: tag handling is case-sensitive: `<IMG>` is not recognized as void,
is pushed, and ends as an unclosed-tag diagnostic; `<Div></div>` yields a
mismatch diagnostic. -/
theorem c9_case_sensitive :
    analyze "<IMG>".data = [Diag.unclosed "IMG".data 1] ∧
    analyze "<Div></div>".data = [Diag.mismatch "Div".data 1 "div".data 1] := by
  exact ⟨by decide, by decide⟩

/-- C10: a token whose group 3 is a slash followed by whitespace — the
shape the tokenizer produces when the trailing slash is separated from the
closing angle bracket by whitespace — is classified as explicitly
self-closing and is never pushed onto the stack. -/
theorem c10_spaced_self_close_skipped (content : List Char) (ts : List Tok)
    (s : List (List Char × Nat)) (name ws : List Char) (p : Nat)
    (hws : ∀ c ∈ ws, isPySpace c = true) :
    isSelfClosingTok (Tok.mk false name ('/' :: ws) p) = true ∧
    processToks content (Tok.mk false name ('/' :: ws) p :: ts) s =
      processToks content ts s := by
  have hslash : isPySpace '/' = false := by decide
  have hstrip : pyStrip ('/' :: ws) = ['/'] := by
    unfold pyStrip
    have h1 : ('/' :: ws).dropWhile isPySpace = '/' :: ws := by
      rw [List.dropWhile_cons]
      simp [hslash]
    rw [h1, List.reverse_cons, List.dropWhile_append]
    have h2 : ws.reverse.dropWhile isPySpace = [] := by
      rw [List.dropWhile_eq_nil_iff]
      intro x hx
      exact hws x (List.mem_reverse.mp hx)
    rw [h2]
    simp [List.dropWhile_cons, hslash]
  have hsc : isSelfClosingTok (Tok.mk false name ('/' :: ws) p) = true := by
    simp [isSelfClosingTok, hstrip]
  exact ⟨hsc, by simp [processToks, hsc]⟩

/-- Witness for C10 at the concrete input `<span / >`: the tokenizer
captures `/ ` as group 3 and the token is skipped. -/
theorem c10_witness :
    tokens "<span / >".data = [Tok.mk false "span".data ('/' :: [' ']) 0] ∧
    (∀ c ∈ [' '], isPySpace c = true) ∧
    (isSelfClosingTok (Tok.mk false "span".data ('/' :: [' ']) 0) = true ∧
      processToks "<span / >".data [Tok.mk false "span".data ('/' :: [' ']) 0] [] =
        processToks "<span / >".data [] []) :=
  ⟨by decide, by decide,
    c10_spaced_self_close_skipped "<span / >".data [] [] "span".data [' '] 0 (by decide)⟩

end Analyzer
